import Mathlib

/-!
Verification development for the passbook team secret store.

The definitions below are a shallow embedding of the Go sources:

* `internal/backend/crypto/age/age.go` — the age encryption backend
  (`Encrypt`, `Decrypt`, `parseRecipients`, `dedupeRecipients`);
* `internal/models/permission.go` — `SecretPermissions` and its operations;
* `internal/models/user.go` — roles, stages, `Role.CanAccessStage`;
* `internal/rbac` — the permission table and `Engine.CanAccessStage`,
  `Engine.GetStageRecipients`;
* `internal/action` — `saveCredentialWithPermissions`, `getAllRecipientKeys`,
  `CredAccessGrant`, the team operations of `team.go` and
  `updateRecipientsFile`;
* `internal/store/users.go` — `CreateUser`'s recipients-file update;
* `internal/recipients/recipients.go` — the roster file operations;
* `internal/reencrypt/reencrypt.go` — the re-encryption batch;
* the verification package — `VerifyResponse` and the pending-verification
  store.

The external age library (filippo.io/age) is modelled as an ideal
multi-recipient cipher at two grains.  `Ciphertext` records the set of keys
the payload key is wrapped for, the payload, and a header-integrity bit; it
serves the claims that only concern the header phase and cleanly-reading
payloads (the encrypt round-trip and the re-encryption batch).
`StreamCiphertext` additionally exposes the payload chunk stream whose AEAD
tags the age reader verifies one chunk at a time during `Read`, capturing the
`io.ReadAll` behavior of `Decrypt`: a chunk-tag failure surfaces as a raw,
unwrapped error together with the plaintext prefix already read.  Go's
`strings.TrimSpace` is modelled by `trimSpace` below, and success of
`age.ParseX25519Recipient` by the `age1` prefix check that the repository
itself uses for lenient roster parsing.
-/

namespace Passbook

/-- Whitespace as stripped by Go's `strings.TrimSpace` (ASCII cases). -/
def isGoSpace (c : Char) : Bool := c == ' ' || c == '\t' || c == '\n' || c == '\r'

/-- Model of Go's `strings.TrimSpace`: drop leading and trailing whitespace. -/
def trimSpace (s : String) : String :=
  ⟨((s.data.dropWhile isGoSpace).reverse.dropWhile isGoSpace).reverse⟩

/-- Model of `age.ParseX25519Recipient` succeeding: an age public key is a
string with the `age1` prefix (the same check the repository applies when it
parses roster lines leniently in `recipients.Parse` and `team.go`). -/
def validKey (s : String) : Bool := s.data.take 4 == "age1".data

/-- An age ciphertext, coarse view: the list of public keys the payload key is
wrapped for, the payload bytes, and whether the header integrity check (the
key-wrap lookup and header MAC that the `age.Decrypt` call itself performs)
holds.  The payload chunk stream is exposed separately by
`StreamCiphertext`. -/
structure Ciphertext where
  recips : List String
  payload : List Nat
  intact : Bool
deriving Repr, DecidableEq

/-- Ideal model of the age library's `Encrypt`: wrap one payload key for each
recipient; the produced container is intact. -/
def ageEncrypt (recips : List String) (payload : List Nat) : Ciphertext :=
  ⟨recips, payload, true⟩

/-- Ideal model of the `age.Decrypt` call succeeding and the payload stream
reading cleanly: the identity's public key is among the wrapped keys and the
header integrity holds. -/
def ageDecrypt (identityKey : String) (c : Ciphertext) : Option (List Nat) :=
  if c.intact && c.recips.contains identityKey then some c.payload else none

/-- Errors surfaced by the age backend (`age.go`). -/
inductive AgeError where
  | noIdentity
  | invalidRecipient
  | invalidSelfKey
  | noRecipients
  | decryptionFailed
deriving Repr, DecidableEq

/-- `Age.parseRecipients` from `age.go`: trim each entry, skip empty entries,
fail with `ErrInvalidRecipient` on any entry the age library rejects. -/
def parseRecipients : List String → Except AgeError (List String)
  | [] => .ok []
  | r :: rest =>
    let r := trimSpace r
    if r = "" then parseRecipients rest
    else if validKey r then
      match parseRecipients rest with
      | .ok rs => .ok (r :: rs)
      | .error e => .error e
    else .error .invalidRecipient

/-- `dedupeRecipients` from `age.go`: keep the first occurrence of each key,
preserving order. -/
def dedupeRecipients (recps : List String) : List String :=
  recps.foldl (fun acc r => if acc.contains r then acc else acc ++ [r]) []

/-- `Age.Encrypt` from `age.go`: parse the recipient keys, unconditionally
append the caller's own public key (when the backend holds one), deduplicate,
reject an empty recipient set, and seal the plaintext once for all wrapped
keys. -/
def encrypt (selfPublicKey : String) (plaintext : List Nat) (recipients : List String) :
    Except AgeError Ciphertext :=
  match parseRecipients recipients with
  | .error e => .error e
  | .ok recps =>
    let withSelf : Except AgeError (List String) :=
      if selfPublicKey ≠ "" then
        if validKey selfPublicKey then .ok (recps ++ [selfPublicKey])
        else .error AgeError.invalidSelfKey
      else .ok recps
    match withSelf with
    | .error e => .error e
    | .ok recps =>
      let recps := dedupeRecipients recps
      if recps = [] then .error .noRecipients
      else .ok (ageEncrypt recps plaintext)

/-- `Age.Decrypt` from `age.go`, restricted to ciphertexts whose payload
stream reads cleanly: fail with `ErrNoIdentity` when no identity is loaded,
wrap a failure of the `age.Decrypt` call (wrong key, broken header) in
`ErrDecryptionFailed`, and return the payload otherwise.  This coarse view is
what the encrypt round-trip and the re-encryption batch need; `goDecrypt`
below embeds the full function including the final `io.ReadAll` over the
payload chunk stream, and `decrypt_agrees_on_clean_stream` relates the two. -/
def decrypt (identityKey : Option String) (ciphertext : Ciphertext) :
    Except AgeError (List Nat) :=
  match identityKey with
  | none => .error .noIdentity
  | some idKey =>
    match ageDecrypt idKey ciphertext with
    | some plaintext => .ok plaintext
    | none => .error .decryptionFailed

/-- A valid key has the 4-character prefix, hence is nonempty. -/
lemma validKey_ne_empty {s : String} (h : validKey s = true) : s ≠ "" := by
  intro hs
  subst hs
  simp [validKey] at h

/-- `parseRecipients` is the identity on lists of already-trimmed valid keys. -/
lemma parseRecipients_all_valid {R : List String}
    (h : ∀ s ∈ R, validKey s = true ∧ trimSpace s = s) :
    parseRecipients R = .ok R := by
  induction R with
  | nil => rfl
  | cons r rest ih =>
    obtain ⟨hv, ht⟩ := h r (List.mem_cons_self r rest)
    have hne : r ≠ "" := validKey_ne_empty hv
    have hrest := ih (fun s hs => h s (List.mem_cons_of_mem r hs))
    simp only [parseRecipients, ht, hne, if_false, hv, if_true, hrest]

/-- Membership is preserved by `dedupeRecipients`. -/
lemma mem_dedupeRecipients_aux (l acc : List String) (k : String) :
    k ∈ l.foldl (fun acc r => if acc.contains r then acc else acc ++ [r]) acc ↔
      k ∈ l ∨ k ∈ acc := by
  induction l generalizing acc with
  | nil => simp
  | cons r rest ih =>
    simp only [List.foldl_cons]
    by_cases hr : acc.contains r
    · have hrm : r ∈ acc := by simpa using hr
      rw [if_pos hr, ih]
      simp only [List.mem_cons]
      constructor
      · rintro (h | h)
        · exact Or.inl (Or.inr h)
        · exact Or.inr h
      · rintro ((rfl | h) | h)
        · exact Or.inr hrm
        · exact Or.inl h
        · exact Or.inr h
    · rw [if_neg hr, ih]
      simp only [List.mem_cons, List.mem_append, List.not_mem_nil, or_false]
      constructor
      · rintro (h | h | h)
        · exact Or.inl (Or.inr h)
        · exact Or.inr h
        · exact Or.inl (Or.inl h)
      · rintro ((rfl | h) | h)
        · exact Or.inr (Or.inr rfl)
        · exact Or.inl h
        · exact Or.inr (Or.inl h)

lemma mem_dedupeRecipients (l : List String) (k : String) :
    k ∈ dedupeRecipients l ↔ k ∈ l := by
  unfold dedupeRecipients
  rw [mem_dedupeRecipients_aux]
  simp

/-- C1: for every plaintext `P` and recipient-key list `R` whose keys are
well-formed, that contains the encrypter's own public key (hence is non-empty
after deduplication), `Encrypt(P, R)` succeeds and decrypting its output with
the identity of any single recipient listed in `R` returns exactly `P`. -/
theorem encrypt_roundtrip_any_recipient
    (P : List Nat) (R : List String) (self k : String)
    (hkeys : ∀ s ∈ R, validKey s = true ∧ trimSpace s = s)
    (hself : self ∈ R) (hk : k ∈ R) :
    ∃ c, encrypt self P R = .ok c ∧ decrypt (some k) c = .ok P := by
  have hparse := parseRecipients_all_valid hkeys
  have hvself : validKey self = true := (hkeys self hself).1
  have hnself : self ≠ "" := validKey_ne_empty hvself
  have hne : dedupeRecipients (R ++ [self]) ≠ [] := by
    intro hnil
    have hmem : self ∈ dedupeRecipients (R ++ [self]) :=
      (mem_dedupeRecipients _ _).mpr (List.mem_append_left _ hself)
    rw [hnil] at hmem
    exact List.not_mem_nil self hmem
  refine ⟨ageEncrypt (dedupeRecipients (R ++ [self])) P, ?_, ?_⟩
  · simp [encrypt, hparse, hnself, hvself, hne]
  · have hmem : k ∈ dedupeRecipients (R ++ [self]) :=
      (mem_dedupeRecipients _ _).mpr (List.mem_append_left _ hk)
    simp [decrypt, ageDecrypt, ageEncrypt, hmem]

/-- Witness for C1 at a concrete input. -/
theorem encrypt_roundtrip_any_recipient_witness :
    ∃ c, encrypt ("age1self") [7, 0, 42] ["age1self", "age1bob"] = .ok c ∧
      decrypt (some ("age1bob")) c = .ok [7, 0, 42] :=
  encrypt_roundtrip_any_recipient [7, 0, 42] ["age1self", "age1bob"]
    "age1self" "age1bob" (by decide) (by decide) (by decide)

/-- One payload chunk of an age ciphertext: its plaintext bytes and whether
its AEAD tag verifies.  The age reader checks each chunk's tag during
`Read`. -/
structure PayloadChunk where
  bytes : List Nat
  tagOk : Bool
deriving Repr, DecidableEq

/-- An age ciphertext with its payload stream exposed: the wrapped keys, the
header integrity (what the `age.Decrypt` call itself verifies), and the
payload chunks read afterwards. -/
structure StreamCiphertext where
  recips : List String
  headerIntact : Bool
  chunks : List PayloadChunk
deriving Repr, DecidableEq

/-- Error outcomes of `Age.Decrypt` in `age.go`: `ErrNoIdentity`; the error of
the `age.Decrypt` call wrapped in `ErrDecryptionFailed`; or the raw error that
`io.ReadAll` surfaces when a payload chunk's AEAD tag fails — the source
returns that last one unwrapped. -/
inductive DecryptErr where
  | noIdentity
  | decryptionFailed
  | rawReadError
deriving Repr, DecidableEq

/-- Model of `io.ReadAll` over the age payload reader: concatenate the chunks
whose tags verify, stopping at the first failing chunk; on such a failure the
bytes read so far are returned together with the raw error (`io.ReadAll`
returns the data read up to the error). -/
def ioReadAll : List PayloadChunk → List Nat × Option DecryptErr
  | [] => ([], none)
  | ch :: rest =>
    if ch.tagOk then
      let r := ioReadAll rest
      (ch.bytes ++ r.1, r.2)
    else ([], some .rawReadError)

/-- `Age.Decrypt` from `age.go` in full, Go's value-and-error pair made
explicit: fail with `ErrNoIdentity` when no identity is loaded; wrap only the
error of the `age.Decrypt` call (wrong key, broken header) in
`ErrDecryptionFailed`, returning no bytes; then `return io.ReadAll(r)` passes
the read prefix and any raw read error through unchanged. -/
def goDecrypt (identityKey : Option String) (c : StreamCiphertext) :
    List Nat × Option DecryptErr :=
  match identityKey with
  | none => ([], some .noIdentity)
  | some idKey =>
    if c.headerIntact && c.recips.contains idKey then ioReadAll c.chunks
    else ([], some .decryptionFailed)

/-- On a cleanly-reading single-chunk stream, the full `goDecrypt` agrees with
the coarse `decrypt`: the coarse model is exactly the clean-stream restriction
of the source function. -/
lemma decrypt_agrees_on_clean_stream (c : Ciphertext) (idKey : String) :
    goDecrypt (some idKey) ⟨c.recips, c.intact, [⟨c.payload, true⟩]⟩ =
      match decrypt (some idKey) c with
      | .ok p => (p, none)
      | .error _ => ([], some DecryptErr.decryptionFailed) := by
  by_cases h1 : c.intact = true <;> by_cases h2 : idKey ∈ c.recips <;>
    simp [goDecrypt, decrypt, ageDecrypt, ioReadAll, h1, h2]

/-- A ciphertext the local key can open whose second payload chunk carries a
broken AEAD tag. -/
def chunkFailCiphertext : StreamCiphertext :=
  ⟨["age1bob"], true, [⟨[7, 7], true⟩, ⟨[9, 9], false⟩]⟩

/-- C6 counterexample: the local key is among the wrapped keys and the header
verifies, but the second payload chunk's AEAD tag fails; `Decrypt` then
neither fails with `DecryptionFailed` nor withholds the plaintext — it returns
the raw read error together with the first chunk's plaintext, a partial
prefix. -/
theorem decrypt_partial_prefix_counterexample :
    goDecrypt (some ("age1bob")) chunkFailCiphertext =
        ([7, 7], some DecryptErr.rawReadError) ∧
      (goDecrypt (some ("age1bob")) chunkFailCiphertext).2 ≠
        some DecryptErr.decryptionFailed ∧
      (goDecrypt (some ("age1bob")) chunkFailCiphertext).1 ≠ [] := by
  refine ⟨rfl, ?_, ?_⟩ <;> decide

/-- C6 (amended): with an identity loaded, `Decrypt` fails with
`DecryptionFailed` and returns no plaintext bytes whenever the local private
key is not among the ciphertext's wrapped keys or the header integrity
verification fails; a payload chunk AEAD failure is outside this guarantee —
there the raw read error is returned, possibly alongside a partial plaintext
prefix. -/
theorem decrypt_header_failure_closed (c : StreamCiphertext) (idKey : String)
    (h : idKey ∉ c.recips ∨ c.headerIntact = false) :
    goDecrypt (some idKey) c = ([], some DecryptErr.decryptionFailed) := by
  rcases h with h | h
  · simp [goDecrypt, h]
  · simp [goDecrypt, h]

/-- Witness for the amended C6 at a concrete input. -/
theorem decrypt_header_failure_closed_witness :
    goDecrypt (some ("age1eve")) chunkFailCiphertext =
      ([], some DecryptErr.decryptionFailed) :=
  decrypt_header_failure_closed chunkFailCiphertext ("age1eve")
    (Or.inl (by decide))

/-! ## Per-secret permissions (`internal/models/permission.go`) -/

/-- `RecipientPermission` from `permission.go`.  Access levels are Go strings;
the valid values are the constants `"read"` and `"write"`. -/
structure RecipientPermission where
  email : String
  publicKey : String
  access : String
deriving Repr, DecidableEq

/-- `SecretPermissions` from `permission.go`. -/
structure SecretPermissions where
  recipients : List RecipientPermission
  useRoleBasedAccess : Bool
deriving Repr, DecidableEq

/-- The list update of `SecretPermissions.AddRecipient`: overwrite the access
of the first entry matching by email or by public key, otherwise append a new
entry. -/
def addRecipientList (email publicKey access : String) :
    List RecipientPermission → List RecipientPermission
  | [] => [⟨email, publicKey, access⟩]
  | r :: rest =>
    if r.email = email ∨ r.publicKey = publicKey then
      { r with access := access } :: rest
    else r :: addRecipientList email publicKey access rest

/-- `SecretPermissions.AddRecipient` from `permission.go`. -/
def addRecipient (p : SecretPermissions) (email publicKey access : String) :
    SecretPermissions :=
  { p with recipients := addRecipientList email publicKey access p.recipients }

/-- `SecretPermissions.GetAccess` from `permission.go`: the access level of the
first entry whose email matches. -/
def getAccess (p : SecretPermissions) (email : String) : Option String :=
  (p.recipients.find? (fun r => r.email == email)).map (fun r => r.access)

/-- `SecretPermissions.HasRecipient` from `permission.go`. -/
def hasRecipient (p : SecretPermissions) (email : String) : Bool :=
  (getAccess p email).isSome

/-- `SecretPermissions.GetReadRecipients` from `permission.go`: the public keys
of all entries — both read and write entries can decrypt. -/
def getReadRecipients (p : SecretPermissions) : List String :=
  p.recipients.map (fun r => r.publicKey)

/-! ## The action layer's credential save and per-secret grant -/

/-- The always-include-self step the action layer repeats after computing a
recipient list: append the operator's own key when it is non-empty and not
already present. -/
def ensureSelf (keys : List String) (selfKey : String) : List String :=
  if selfKey ≠ "" ∧ ¬ keys.contains selfKey then keys ++ [selfKey] else keys

/-- `getAllRecipientKeys` from the action layer: every team member's non-empty
public key, with the operator's own key appended when missing. -/
def getAllRecipientKeys (userKeys : List String) (selfKey : String) : List String :=
  ensureSelf (userKeys.filter (fun k => k ≠ "")) selfKey

/-- The recipient-set computation of `saveCredentialWithPermissions` (action
layer): when the credential carries permissions that are non-empty and not
role-based, take the non-empty public keys of the listed entries; otherwise
fall back to all team keys; in both cases ensure the operator's own key is
present. -/
def credSaveRecipients (perms : Option SecretPermissions) (userKeys : List String)
    (selfKey : String) : List String :=
  match perms with
  | some p =>
    if ¬ p.useRoleBasedAccess ∧ 0 < p.recipients.length then
      ensureSelf
        ((p.recipients.filter (fun r => r.publicKey ≠ "")).map (fun r => r.publicKey))
        selfKey
    else ensureSelf (getAllRecipientKeys userKeys selfKey) selfKey
  | none => ensureSelf (getAllRecipientKeys userKeys selfKey) selfKey

/-- Membership in `ensureSelf`. -/
lemma mem_ensureSelf (keys : List String) (selfKey k : String) :
    k ∈ ensureSelf keys selfKey ↔ k ∈ keys ∨ (selfKey ≠ "" ∧ k = selfKey) := by
  unfold ensureSelf
  by_cases hs : selfKey = ""
  · rw [if_neg (by rintro ⟨hn, -⟩; exact hn hs)]
    constructor
    · exact fun h => Or.inl h
    · rintro (h | ⟨hn, -⟩)
      · exact h
      · exact absurd hs hn
  · by_cases hc : selfKey ∈ keys
    · rw [if_neg (by rintro ⟨-, hn⟩; exact hn (by simpa using hc))]
      constructor
      · exact fun h => Or.inl h
      · rintro (h | ⟨-, rfl⟩)
        · exact h
        · exact hc
    · rw [if_pos ⟨hs, by simpa using hc⟩]
      simp only [List.mem_append, List.mem_singleton]
      constructor
      · rintro (h | rfl)
        · exact Or.inl h
        · exact Or.inr ⟨hs, rfl⟩
      · rintro (h | ⟨-, rfl⟩)
        · exact Or.inl h
        · exact Or.inr rfl

/-- C3: for a secret with present, non-empty, non-role-based permissions, the
recipient set used for encryption does not depend on the team roster, and a key
belongs to it exactly when it is the (non-empty) public key of a listed entry —
read or write — or the operator's own key. -/
theorem explicit_permissions_recipients
    (p : SecretPermissions) (userKeys1 userKeys2 : List String) (selfKey : String)
    (hmode : p.useRoleBasedAccess = false) (hne : p.recipients ≠ [])
    (hself : selfKey ≠ "") :
    credSaveRecipients (some p) userKeys1 selfKey =
        credSaveRecipients (some p) userKeys2 selfKey ∧
      ∀ k, k ∈ credSaveRecipients (some p) userKeys1 selfKey ↔
        ((∃ r ∈ p.recipients, r.publicKey = k) ∧ k ≠ "") ∨ k = selfKey := by
  have hlen : 0 < p.recipients.length := List.length_pos.mpr hne
  constructor
  · simp [credSaveRecipients, hmode, hlen]
  · intro k
    have hbase : ∀ x : String,
        x ∈ (p.recipients.filter (fun r => r.publicKey ≠ "")).map
            (fun r => r.publicKey) ↔
          (∃ r ∈ p.recipients, r.publicKey = x) ∧ x ≠ "" := by
      intro x
      simp only [List.mem_map, List.mem_filter, decide_eq_true_eq]
      constructor
      · rintro ⟨r, ⟨hr, hrk⟩, rfl⟩
        exact ⟨⟨r, hr, rfl⟩, hrk⟩
      · rintro ⟨⟨r, hr, rfl⟩, hk⟩
        exact ⟨r, ⟨hr, hk⟩, rfl⟩
    have hred : credSaveRecipients (some p) userKeys1 selfKey =
        ensureSelf ((p.recipients.filter (fun r => r.publicKey ≠ "")).map
          (fun r => r.publicKey)) selfKey := by
      simp [credSaveRecipients, hmode, hlen]
    rw [hred, mem_ensureSelf, hbase k]
    constructor
    · rintro (h | ⟨-, rfl⟩)
      · exact Or.inl h
      · exact Or.inr rfl
    · rintro (h | rfl)
      · exact Or.inl h
      · exact Or.inr ⟨hself, rfl⟩

/-- Witness for C3 at a concrete input: an explicit allow-list with one read
entry resolves to that key plus the operator's, whatever the roster holds. -/
theorem explicit_permissions_recipients_witness :
    credSaveRecipients (some ⟨[⟨"a@x.com", "age1aaa", "read"⟩], false⟩)
          ["age1r1", "age1r2", "age1r3"] "age1op" =
        credSaveRecipients (some ⟨[⟨"a@x.com", "age1aaa", "read"⟩], false⟩)
          [] "age1op" ∧
      ∀ k, k ∈ credSaveRecipients (some ⟨[⟨"a@x.com", "age1aaa", "read"⟩], false⟩)
          ["age1r1", "age1r2", "age1r3"] "age1op" ↔
        ((∃ r ∈ [(⟨"a@x.com", "age1aaa", "read"⟩ : RecipientPermission)],
            r.publicKey = k) ∧ k ≠ "") ∨ k = "age1op" :=
  explicit_permissions_recipients ⟨[⟨"a@x.com", "age1aaa", "read"⟩], false⟩
    ["age1r1", "age1r2", "age1r3"] [] "age1op" (by decide) (by decide) (by decide)

/-- The `SecretPermissions` update performed by a successful `CredAccessGrant`
(action layer): switch the secret to explicit permissions, grant the target the
requested access, then add the operator with write access — but only when the
operator's email is not already listed. -/
def credAccessGrant (p : SecretPermissions) (targetEmail targetKey access : String)
    (opEmail opKey : String) : SecretPermissions :=
  let p1 : SecretPermissions := { p with useRoleBasedAccess := false }
  let p2 := addRecipient p1 targetEmail targetKey access
  if hasRecipient p2 opEmail then p2
  else addRecipient p2 opEmail opKey ("write")

/-- C5 counterexample: an operator already listed with read-only access keeps
read-only access after granting someone else read access — the code only
ensures the operator is listed, not that they hold write access. -/
theorem credAccessGrant_operator_kept_read_only :
    getAccess (credAccessGrant ⟨[⟨"op@x.com", "age1op", "read"⟩], true⟩
        "bob@x.com" "age1bob" "read" "op@x.com" "age1op") "op@x.com" =
        some ("read") ∧
      getAccess (credAccessGrant ⟨[⟨"op@x.com", "age1op", "read"⟩], true⟩
        "bob@x.com" "age1bob" "read" "op@x.com" "age1op") "op@x.com" ≠
        some ("write") := by
  constructor
  · rfl
  · decide

/-- `addRecipientList` always leaves an entry matching the given email or key
whose access is the given level. -/
lemma addRecipientList_mem_target (email key acc : String) :
    ∀ l : List RecipientPermission, ∃ r ∈ addRecipientList email key acc l,
      (r.email = email ∨ r.publicKey = key) ∧ r.access = acc
  | [] => ⟨⟨email, key, acc⟩, by simp [addRecipientList], Or.inl rfl, rfl⟩
  | r :: rest => by
    by_cases h : r.email = email ∨ r.publicKey = key
    · exact ⟨{ r with access := acc }, by simp [addRecipientList, h], h, rfl⟩
    · obtain ⟨x, hx, hprop⟩ := addRecipientList_mem_target email key acc rest
      exact ⟨x, by simp [addRecipientList, h, hx], hprop⟩

/-- C5 (amended): a successful per-secret grant switches the secret to explicit
permissions, and when the operator's email is not already listed after the
target's grant, the operator is added with write access. -/
theorem credAccessGrant_operator_write_when_unlisted
    (p : SecretPermissions) (tEmail tKey acc opEmail opKey : String)
    (h : hasRecipient (addRecipient { p with useRoleBasedAccess := false }
        tEmail tKey acc) opEmail = false) :
    (credAccessGrant p tEmail tKey acc opEmail opKey).useRoleBasedAccess = false ∧
      ∃ r ∈ (credAccessGrant p tEmail tKey acc opEmail opKey).recipients,
        (r.email = opEmail ∨ r.publicKey = opKey) ∧ r.access = "write" := by
  unfold credAccessGrant
  simp only [h, Bool.false_eq_true, if_false]
  exact ⟨rfl, addRecipientList_mem_target opEmail opKey ("write") _⟩

/-- Witness for the amended C5 at a concrete input. -/
theorem credAccessGrant_operator_write_when_unlisted_witness :
    (credAccessGrant ⟨[], true⟩ "bob@x.com" "age1bob" "read" "op@x.com"
        "age1op").useRoleBasedAccess = false ∧
      ∃ r ∈ (credAccessGrant ⟨[], true⟩ "bob@x.com" "age1bob" "read" "op@x.com"
          "age1op").recipients,
        (r.email = "op@x.com" ∨ r.publicKey = "age1op") ∧ r.access = "write" :=
  credAccessGrant_operator_write_when_unlisted ⟨[], true⟩ "bob@x.com" "age1bob"
    "read" "op@x.com" "age1op" (by decide)

/-! ## Roles, stages, and the rbac permission table -/

/-- `Role.IsValid` from `models/user.go`: the four role strings. -/
def roleIsValid (r : String) : Bool :=
  r == "dev" || r == "staging-access" || r == "prod-access" || r == "admin"

/-- `Stage.IsValid` from `models/user.go`: the three stage strings. -/
def stageIsValid (s : String) : Bool :=
  s == "dev" || s == "staging" || s == "prod"

/-- `Role.CanAccessStage` from `models/user.go`: admin and prod-access may
access every stage, staging-access may access dev and staging, dev only dev,
anything else nothing. -/
def roleCanAccessStage (r stage : String) : Bool :=
  if r = "admin" ∨ r = "prod-access" then true
  else if r = "staging-access" then stage == "dev" || stage == "staging"
  else if r = "dev" then stage == "dev"
  else false

/-- A team member (`models.User`), restricted to the fields the claims use.
`pendingVerification` is modelled from the spec: the source stores it in a
`Metadata` string map whose accessors (`IsPendingVerification`, `SetVerified`)
are not among the provided sources; the spec records it as the boolean field
`verification_pending` of the User record. -/
structure User where
  email : String
  publicKey : String
  roles : List String
  pendingVerification : Bool
deriving Repr, DecidableEq

/-- The `rbac.RolePermissions` table. -/
def rolePermissions (r : String) : List String :=
  if r = "dev" then
    ["credentials:read", "env:dev:read", "env:dev:write", "team:list",
     "project:list"]
  else if r = "staging-access" then
    ["credentials:read", "env:dev:read", "env:dev:write", "env:staging:read",
     "env:staging:write", "team:list", "project:list"]
  else if r = "prod-access" then
    ["credentials:read", "credentials:write", "env:dev:read", "env:dev:write",
     "env:staging:read", "env:staging:write", "env:prod:read", "env:prod:write",
     "team:list", "project:list", "project:create"]
  else if r = "admin" then
    ["credentials:read", "credentials:write", "env:dev:read", "env:dev:write",
     "env:staging:read", "env:staging:write", "env:prod:read", "env:prod:write",
     "team:list", "team:invite", "team:revoke", "team:grant", "project:list",
     "project:create", "project:delete"]
  else []

/-- `Engine.Can` from the rbac package, on a user's role list: some role's
table row contains the permission (roles missing from the table are skipped,
as the Go map lookup does). -/
def engineCan (roles : List String) (perm : String) : Bool :=
  roles.any (fun role => (rolePermissions role).contains perm)

/-- `Engine.CanAccessStage` from the rbac package: pick the stage's read or
write permission and test it; unknown stages yield false. -/
def engineCanAccessStage (roles : List String) (stage : String) (write : Bool) :
    Bool :=
  if stage = "dev" then
    engineCan roles (if write then ("env:dev:write") else ("env:dev:read"))
  else if stage = "staging" then
    engineCan roles (if write then ("env:staging:write") else ("env:staging:read"))
  else if stage = "prod" then
    engineCan roles (if write then ("env:prod:write") else ("env:prod:read"))
  else false

/-- `Engine.GetStageRecipients` from the rbac package: the public keys of all
listed users who can read the stage. -/
def getStageRecipients (users : List User) (stage : String) : List String :=
  (users.filter (fun u => engineCanAccessStage u.roles stage false)).map
    (fun u => u.publicKey)

/-- Any-over-a-list agrees with any-over-singletons for `engineCanAccessStage`. -/
lemma engineCanAccessStage_singletons (roles : List String) (stage : String)
    (w : Bool) :
    engineCanAccessStage roles stage w =
      roles.any (fun r => engineCanAccessStage [r] stage w) := by
  unfold engineCanAccessStage engineCan
  by_cases h1 : stage = "dev" <;> by_cases h2 : stage = "staging" <;>
    by_cases h3 : stage = "prod" <;> simp [h1, h2, h3]

/-- For a valid stage, one role's row of the rbac table grants the stage's
read permission exactly when `Role.CanAccessStage` allows the stage; roles
unknown to either implementation grant nothing. -/
lemma engine_single_role_eq_roleCanAccessStage (r stage : String)
    (hs : stageIsValid stage = true) :
    engineCanAccessStage [r] stage false = roleCanAccessStage r stage := by
  have hs' : stage = "dev" ∨ stage = "staging" ∨ stage = "prod" := by
    simpa [stageIsValid, or_assoc] using hs
  by_cases hd : r = "dev" <;> by_cases hg : r = "staging-access" <;>
    by_cases hp : r = "prod-access" <;> by_cases ha : r = "admin" <;>
    rcases hs' with rfl | rfl | rfl <;>
    simp [engineCanAccessStage, engineCan, rolePermissions, roleCanAccessStage,
      hd, hg, hp, ha]

/-- C10: for every valid role and valid stage, the model-layer
`Role.CanAccessStage` and the rbac engine's `CanAccessStage` with write=false
agree (stated for a user holding exactly that role). -/
theorem role_dispatch_agreement (role stage : String)
    (_hr : roleIsValid role = true) (hs : stageIsValid stage = true) :
    roleCanAccessStage role stage = engineCanAccessStage [role] stage false := by
  exact (engine_single_role_eq_roleCanAccessStage role stage hs).symm

/-- Witness for C10 at a concrete input. -/
theorem role_dispatch_agreement_witness :
    roleCanAccessStage ("staging-access") ("prod") =
      engineCanAccessStage ["staging-access"] "prod" false :=
  role_dispatch_agreement ("staging-access") ("prod") (by decide) (by decide)

/-- Pointwise equal predicates give equal `List.any`. -/
lemma list_any_congr {α : Type} {f g : α → Bool} :
    ∀ {l : List α}, (∀ x ∈ l, f x = g x) → l.any f = l.any g
  | [], _ => rfl
  | x :: xs, h => by
    simp only [List.any_cons]
    rw [h x (List.mem_cons_self x xs),
      list_any_congr (fun y hy => h y (List.mem_cons_of_mem x hy))]

/-- C4: for every valid stage, the stage's recipient set is exactly the public
keys of the listed users holding at least one role that `Role.CanAccessStage`
admits for that stage. -/
theorem stage_recipients_role_based (users : List User) (stage : String)
    (hs : stageIsValid stage = true) :
    getStageRecipients users stage =
      (users.filter (fun u => u.roles.any (fun r => roleCanAccessStage r stage))).map
        (fun u => u.publicKey) := by
  unfold getStageRecipients
  congr 1
  apply List.filter_congr
  intro u hu
  rw [engineCanAccessStage_singletons]
  exact list_any_congr
    (fun r hr => engine_single_role_eq_roleCanAccessStage r stage hs)

/-- Witness for C4 at a concrete input. -/
theorem stage_recipients_role_based_witness :
    getStageRecipients
        [⟨"alice@x.com", "age1alice", ["admin"], false⟩,
         ⟨"bob@x.com", "age1bob", ["dev"], false⟩] "staging" =
      (List.filter
          (fun u : User => u.roles.any (fun r => roleCanAccessStage r ("staging")))
          [⟨"alice@x.com", "age1alice", ["admin"], false⟩,
           ⟨"bob@x.com", "age1bob", ["dev"], false⟩]).map
        (fun u => u.publicKey) :=
  stage_recipients_role_based
    [⟨"alice@x.com", "age1alice", ["admin"], false⟩,
     ⟨"bob@x.com", "age1bob", ["dev"], false⟩] "staging" (by decide)

/-! ## Key verification protocol (the verification package) -/

/-- `PendingVerification` from the verification package.  Timestamps are
modelled as integers (Unix instants); `time.Now().After(t)` is a strict
comparison. -/
structure PendingVerification where
  email : String
  publicKey : String
  challenge : String
  encryptedChallenge : String
  createdAt : Int
  expiresAt : Int
deriving Repr, DecidableEq

/-- Errors of the verification package. -/
inductive VerifyError where
  | challengeExpired
  | challengeNotFound
  | challengeMismatch
deriving Repr, DecidableEq

/-- `Verifier.VerifyResponse` from the verification package, with the
pending-verifications store passed as explicit state: find the first pending
record whose email matches (`ChallengeNotFound` when none), delete it and fail
with `ChallengeExpired` when the current time is past its expiry, fail with
`ChallengeMismatch` (store unchanged) when the response differs from the stored
challenge, and otherwise succeed deleting the record — the deletions are
`removePendingVerification` at the found index. -/
def verifyResponse (now : Int) (email response : String) :
    List PendingVerification → Except VerifyError Unit × List PendingVerification
  | [] => (.error .challengeNotFound, [])
  | pv :: rest =>
    if pv.email = email then
      if pv.expiresAt < now then (.error .challengeExpired, rest)
      else if response ≠ pv.challenge then (.error .challengeMismatch, pv :: rest)
      else (.ok (), rest)
    else
      let r := verifyResponse now email response rest
      (r.1, pv :: r.2)

/-- The first pending record for an email, used to state the claims. -/
def findPending (email : String) (pending : List PendingVerification) :
    Option PendingVerification :=
  pending.find? (fun pv => pv.email == email)

/-- Removal of the first pending record for an email, used to state the
claims. -/
def eraseFirstPending (email : String) :
    List PendingVerification → List PendingVerification
  | [] => []
  | pv :: rest => if pv.email = email then rest else pv :: eraseFirstPending email rest

/-- C8: a pending verification whose expiry lies in the past fails with
`ChallengeExpired` even when the supplied response equals the stored challenge
exactly, and the expired record is deleted from the store. -/
theorem verify_expired_fails_and_deletes (now : Int) (email response : String)
    (pending : List PendingVerification) (pv : PendingVerification)
    (hfind : findPending email pending = some pv)
    (hexp : pv.expiresAt < now) (hresp : response = pv.challenge) :
    verifyResponse now email response pending =
      (.error .challengeExpired, eraseFirstPending email pending) := by
  induction pending with
  | nil => simp [findPending] at hfind
  | cons q rest ih =>
    by_cases hq : q.email = email
    · have hpv : q = pv := by
        have := hfind
        unfold findPending at this
        rw [List.find?_cons_of_pos _ (by simpa using hq)] at this
        exact Option.some.inj this
      subst hpv
      unfold verifyResponse eraseFirstPending
      rw [if_pos hq, if_pos hexp, if_pos hq]
    · have hfind' : findPending email rest = some pv := by
        have := hfind
        unfold findPending at this
        rw [List.find?_cons_of_neg _ (by simpa using hq)] at this
        exact this
      unfold verifyResponse eraseFirstPending
      rw [if_neg hq, if_neg hq]
      rw [ih hfind']

/-- Witness for C8 at a concrete input. -/
theorem verify_expired_fails_and_deletes_witness :
    verifyResponse 100 ("carol@x.com") ("c-bytes")
        [⟨"carol@x.com", "age1carol", "c-bytes", "enc", 0, 50⟩] =
      (.error .challengeExpired,
        eraseFirstPending ("carol@x.com")
          [⟨"carol@x.com", "age1carol", "c-bytes", "enc", 0, 50⟩]) :=
  verify_expired_fails_and_deletes 100 ("carol@x.com") ("c-bytes")
    [⟨"carol@x.com", "age1carol", "c-bytes", "enc", 0, 50⟩]
    ⟨"carol@x.com", "age1carol", "c-bytes", "enc", 0, 50⟩
    (by decide) (by decide) (by decide)

/-- With no record for the email, `VerifyResponse` fails with
`ChallengeNotFound` and leaves the store unchanged. -/
lemma verifyResponse_no_email (now : Int) (email response : String)
    (pending : List PendingVerification)
    (h : ∀ pv ∈ pending, pv.email ≠ email) :
    verifyResponse now email response pending = (.error .challengeNotFound, pending) := by
  induction pending with
  | nil => rfl
  | cons q rest ih =>
    have hq : q.email ≠ email := h q (List.mem_cons_self q rest)
    unfold verifyResponse
    rw [if_neg hq]
    rw [ih (fun pv hpv => h pv (List.mem_cons_of_mem q hpv))]

/-- C9: the pending store keeps at most one record per email (every save
replaces prior records for the same email), so after one successful
`VerifyResponse` the record is removed and a second identical call fails with
`ChallengeNotFound`. -/
theorem verify_single_use (now now2 : Int) (email response : String)
    (pending : List PendingVerification)
    (huniq : (pending.map (fun pv => pv.email)).Nodup)
    (hok : (verifyResponse now email response pending).1 = .ok ()) :
    (verifyResponse now2 email response
        (verifyResponse now email response pending).2).1 =
      .error .challengeNotFound := by
  induction pending with
  | nil => simp [verifyResponse] at hok
  | cons q rest ih =>
    rw [List.map_cons, List.nodup_cons] at huniq
    obtain ⟨hqnot, hrest⟩ := huniq
    by_cases hq : q.email = email
    · have hnone : ∀ pv ∈ rest, pv.email ≠ email := by
        intro pv hpv heq
        exact hqnot ((hq ▸ heq) ▸ List.mem_map_of_mem (fun p => p.email) hpv)
      have hsnd : (verifyResponse now email response (q :: rest)).2 = rest := by
        unfold verifyResponse
        rw [if_pos hq]
        by_cases hexp : q.expiresAt < now
        · exfalso
          have := hok
          unfold verifyResponse at this
          rw [if_pos hq, if_pos hexp] at this
          simp at this
        · by_cases hr : response = q.challenge
          · rw [if_neg hexp, if_neg (by simpa using hr)]
          · exfalso
            have := hok
            unfold verifyResponse at this
            rw [if_pos hq, if_neg hexp, if_pos hr] at this
            simp at this
      rw [hsnd]
      rw [verifyResponse_no_email now2 email response rest hnone]
    · have hok' : (verifyResponse now email response rest).1 = .ok () := by
        have := hok
        unfold verifyResponse at this
        rw [if_neg hq] at this
        exact this
      simp only [verifyResponse, if_neg hq]
      exact ih hrest hok'

/-- Witness for C9 at a concrete input. -/
theorem verify_single_use_witness :
    (verifyResponse 210 ("carol@x.com") ("c-bytes")
        (verifyResponse 200 ("carol@x.com") ("c-bytes")
          [⟨"carol@x.com", "age1carol", "c-bytes", "enc", 0, 999⟩]).2).1 =
      .error .challengeNotFound :=
  verify_single_use 200 210 ("carol@x.com") ("c-bytes")
    [⟨"carol@x.com", "age1carol", "c-bytes", "enc", 0, 999⟩]
    (by decide) (by rfl)

/-! ## Re-encryption engine (`internal/reencrypt/reencrypt.go`) -/

/-- `Stats` from `reencrypt.go`. -/
structure Stats where
  totalFiles : Nat
  successfulFiles : Nat
  failedFiles : Nat
  skippedFiles : Nat
  errors : List String
deriving Repr, DecidableEq

/-- One entry seen by the `filepath.Walk` callback of `reEncryptDir`: its
path, whether it is a directory, and the stored ciphertext. -/
structure WalkEntry where
  path : String
  isDir : Bool
  content : Ciphertext
deriving Repr, DecidableEq

/-- Go's `strings.HasSuffix(path, ".age")`. -/
def hasAgeExt (p : String) : Bool := p.data.reverse.take 4 == ".age".data.reverse

/-- `reEncryptFile` from `reencrypt.go`, on the crypto model: decrypt the file
with the operator's identity, then re-encrypt it for the new recipients,
reporting which step failed (the surrounding read/write of the file is the
storage collaborator's). -/
def reEncryptFile (selfKey : String) (identityKey : Option String)
    (recipients : List String) (content : Ciphertext) : Except String Ciphertext :=
  match decrypt identityKey content with
  | .error _ => .error ("failed to decrypt")
  | .ok plaintext =>
    match encrypt selfKey plaintext recipients with
    | .error _ => .error ("failed to encrypt")
    | .ok c => .ok c

/-- The walk loop of `reEncryptDir` from `reencrypt.go`: directories and files
without the `.age` extension are passed over without counting; every other
file counts toward the total and either increments the success count, or
increments the failure count and appends one error message; the callback
always continues to the next file. -/
def reEncryptDir (selfKey : String) (identityKey : Option String)
    (recipients : List String) : List WalkEntry → Stats → Stats
  | [], stats => stats
  | e :: es, stats =>
    if e.isDir then reEncryptDir selfKey identityKey recipients es stats
    else if ¬ hasAgeExt e.path then reEncryptDir selfKey identityKey recipients es stats
    else
      let counted : Stats := { stats with totalFiles := stats.totalFiles + 1 }
      match reEncryptFile selfKey identityKey recipients e.content with
      | .error msg =>
        reEncryptDir selfKey identityKey recipients es
          { counted with
              failedFiles := counted.failedFiles + 1,
              errors := counted.errors ++
                ["failed to re-encrypt " ++ e.path ++ ": " ++ msg] }
      | .ok _ =>
        reEncryptDir selfKey identityKey recipients es
          { counted with successfulFiles := counted.successfulFiles + 1 }

/-- Whether a per-file outcome is a failure. -/
def reencryptFailed (x : Except String Ciphertext) : Bool :=
  match x with
  | .error _ => true
  | .ok _ => false

/-- The message of a failing per-file outcome. -/
def reencryptMsg (x : Except String Ciphertext) : String :=
  match x with
  | .error m => m
  | .ok _ => ""

/-- The walk entries that are actually processed: non-directories with the
`.age` extension. -/
def processedEntries (entries : List WalkEntry) : List WalkEntry :=
  entries.filter (fun e => !e.isDir && hasAgeExt e.path)

/-- The processed entries whose re-encryption fails. -/
def failedEntries (selfKey : String) (identityKey : Option String)
    (recipients : List String) (entries : List WalkEntry) : List WalkEntry :=
  (processedEntries entries).filter
    (fun e => reencryptFailed (reEncryptFile selfKey identityKey recipients e.content))

/-- C7: the re-encryption batch processes every listed file and returns
`Stats`: the total grows by the number of processed files, each failing file
adds one to the failure count and appends exactly one error message, each
other processed file adds one to the success count, and failures never
prevent the remaining files from being processed (the final counts depend
only on each file's own outcome). -/
theorem reencrypt_batch_partial_failure (selfKey : String)
    (identityKey : Option String) (recipients : List String)
    (entries : List WalkEntry) (stats : Stats) :
    reEncryptDir selfKey identityKey recipients entries stats =
      { totalFiles := stats.totalFiles + (processedEntries entries).length,
        successfulFiles := stats.successfulFiles +
          ((processedEntries entries).length -
            (failedEntries selfKey identityKey recipients entries).length),
        failedFiles := stats.failedFiles +
          (failedEntries selfKey identityKey recipients entries).length,
        skippedFiles := stats.skippedFiles,
        errors := stats.errors ++
          (failedEntries selfKey identityKey recipients entries).map
            (fun e => "failed to re-encrypt " ++ e.path ++ ": " ++
              reencryptMsg (reEncryptFile selfKey identityKey recipients e.content)) } := by
  induction entries generalizing stats with
  | nil => simp [reEncryptDir, processedEntries, failedEntries]
  | cons e es ih =>
    by_cases hd : e.isDir = true
    · have hp : processedEntries (e :: es) = processedEntries es := by
        simp [processedEntries, hd]
      have hf : failedEntries selfKey identityKey recipients (e :: es) =
          failedEntries selfKey identityKey recipients es := by
        simp [failedEntries, hp]
      unfold reEncryptDir
      rw [if_pos hd, ih, hp, hf]
    · by_cases he : hasAgeExt e.path = true
      · have hp : processedEntries (e :: es) = e :: processedEntries es := by
          simp [processedEntries, hd, he]
        unfold reEncryptDir
        rw [if_neg hd, if_neg (not_not_intro he)]
        rcases hout : reEncryptFile selfKey identityKey recipients e.content with msg | c
        · have hf : failedEntries selfKey identityKey recipients (e :: es) =
              e :: failedEntries selfKey identityKey recipients es := by
            simp [failedEntries, hp, hout, reencryptFailed]
          dsimp only
          rw [ih, hp, hf]
          have hle : (failedEntries selfKey identityKey recipients es).length ≤
              (processedEntries es).length := by
            have := List.length_filter_le
              (fun e => reencryptFailed (reEncryptFile selfKey identityKey recipients e.content))
              (processedEntries es)
            simpa [failedEntries] using this
          simp only [List.length_cons, List.map_cons]
          refine (Stats.mk.injEq _ _ _ _ _ _ _ _ _ _).mpr
            ⟨by omega, by omega, by omega, rfl, ?_⟩
          simp [hout, reencryptMsg, List.append_assoc]
        · have hf : failedEntries selfKey identityKey recipients (e :: es) =
              failedEntries selfKey identityKey recipients es := by
            simp [failedEntries, hp, hout, reencryptFailed]
          dsimp only
          rw [ih, hp, hf]
          have hle : (failedEntries selfKey identityKey recipients es).length ≤
              (processedEntries es).length := by
            have := List.length_filter_le
              (fun e => reencryptFailed (reEncryptFile selfKey identityKey recipients e.content))
              (processedEntries es)
            simpa [failedEntries] using this
          simp only [List.length_cons]
          exact (Stats.mk.injEq _ _ _ _ _ _ _ _ _ _).mpr
            ⟨by omega, by omega, by omega, rfl, rfl⟩
      · have hp : processedEntries (e :: es) = processedEntries es := by
          simp [processedEntries, hd, he]
        have hf : failedEntries selfKey identityKey recipients (e :: es) =
            failedEntries selfKey identityKey recipients es := by
          simp [failedEntries, hp]
        unfold reEncryptDir
        rw [if_neg hd, if_pos (by simpa using he), ih, hp, hf]

/-! ## Team operations and the recipients roster (`team.go`, `store/users.go`,
`recipients.go`) -/

/-- A data line of the `.passbook-recipients` roster file: public key and
email. -/
structure RosterEntry where
  key : String
  email : String
deriving Repr, DecidableEq

/-- `updateRecipientsFile` from `team.go`: rewrite the whole roster from the
user list, skipping users without a public key and users pending
verification. -/
def updateRecipientsFile (users : List User) : List RosterEntry :=
  (users.filter (fun u => u.publicKey ≠ "" && !u.pendingVerification)).map
    (fun u => ⟨u.publicKey, u.email⟩)

/-- `Recipients.Add` from `recipients.go`, as called by `store.CreateUser`:
when the key is already listed only refresh its email (when one is given),
otherwise append the pair. -/
def rosterAdd (roster : List RosterEntry) (key email : String) : List RosterEntry :=
  if roster.any (fun en => en.key == key) then
    roster.map (fun en => if en.key = key ∧ email ≠ "" then ⟨en.key, email⟩ else en)
  else roster ++ [⟨key, email⟩]

/-- The merge of roles performed by `TeamInvite` on an existing user: keep the
current roles and append the requested ones not already held. -/
def mergeRoles (existing incoming : List String) : List String :=
  existing ++ incoming.filter (fun r => !existing.contains r)

/-- The team state the claims range over: the user list and the team-wide
recipients roster file. -/
structure TeamState where
  users : List User
  roster : List RosterEntry
deriving Repr, DecidableEq

/-- One team operation, as a relation on the team state.  Each constructor
mirrors the state-relevant effect of the source operation; guards the source
checks before mutating appear as hypotheses, and the produced state is fixed
by an equation so traces can be checked by evaluation. -/
inductive TeamStep : TeamState → TeamState → Prop where
  /-- `TeamInvite`, new user whose key is known and taken on trust (generated,
  or supplied with verification skipped): append a non-pending user and
  rewrite the roster. -/
  | inviteDirect (s : TeamState) (email key : String) (roles : List String)
      (s' : TeamState)
      (hnew : ∀ u ∈ s.users, u.email ≠ email)
      (hkey : key ≠ "")
      (heq : s' = ⟨s.users ++ [⟨email, key, roles, false⟩],
        updateRecipientsFile (s.users ++ [⟨email, key, roles, false⟩])⟩) :
      TeamStep s s'
  /-- `TeamInvite`, choice 3: create the user without a key; the roster is not
  touched. -/
  | invitePendingNoKey (s : TeamState) (email : String) (roles : List String)
      (s' : TeamState)
      (hnew : ∀ u ∈ s.users, u.email ≠ email)
      (heq : s' = ⟨s.users ++ [⟨email, "", roles, false⟩], s.roster⟩) :
      TeamStep s s'
  /-- `TeamInvite` with key-ownership verification: store the user with the
  claimed key and the `verification_pending` marker; the roster is not
  updated. -/
  | inviteWithVerification (s : TeamState) (email key : String)
      (roles : List String) (s' : TeamState)
      (hnew : ∀ u ∈ s.users, u.email ≠ email)
      (hkey : key ≠ "")
      (heq : s' = ⟨s.users ++ [⟨email, key, roles, true⟩], s.roster⟩) :
      TeamStep s s'
  /-- `TeamInvite`, existing user: merge roles, set a key only when none was
  present, and rewrite the roster when the user ends up with a key. -/
  | inviteExisting (s : TeamState) (i : Nat) (roles : List String)
      (key' : String) (s' : TeamState) (hi : i < s.users.length)
      (hkey : key' = (s.users.get ⟨i, hi⟩).publicKey ∨
        ((s.users.get ⟨i, hi⟩).publicKey = "" ∧ key' ≠ ""))
      (heq : s' =
        if key' ≠ "" then
          ⟨s.users.set i { s.users.get ⟨i, hi⟩ with
              roles := mergeRoles (s.users.get ⟨i, hi⟩).roles roles,
              publicKey := key' },
            updateRecipientsFile (s.users.set i { s.users.get ⟨i, hi⟩ with
              roles := mergeRoles (s.users.get ⟨i, hi⟩).roles roles,
              publicKey := key' })⟩
        else
          ⟨s.users.set i { s.users.get ⟨i, hi⟩ with
              roles := mergeRoles (s.users.get ⟨i, hi⟩).roles roles,
              publicKey := key' }, s.roster⟩) :
      TeamStep s s'
  /-- `TeamVerify`: after a successful challenge response, clear the user's
  pending marker and rewrite the roster. -/
  | verify (s : TeamState) (i : Nat) (s' : TeamState) (hi : i < s.users.length)
      (hpend : (s.users.get ⟨i, hi⟩).pendingVerification = true)
      (heq : s' =
        ⟨s.users.set i { s.users.get ⟨i, hi⟩ with pendingVerification := false },
          updateRecipientsFile
            (s.users.set i
              { s.users.get ⟨i, hi⟩ with pendingVerification := false })⟩) :
      TeamStep s s'
  /-- `TeamRevoke`: drop the user and rewrite the roster. -/
  | revoke (s : TeamState) (email : String) (s' : TeamState)
      (hfound : ∃ u ∈ s.users, u.email = email)
      (heq : s' = ⟨s.users.filter (fun u => u.email ≠ email),
        updateRecipientsFile (s.users.filter (fun u => u.email ≠ email))⟩) :
      TeamStep s s'
  /-- `store.CreateUser`: append a user (never marked pending) and add their
  key to the roster file with `Recipients.Add`. -/
  | createUser (s : TeamState) (email key : String) (roles : List String)
      (s' : TeamState)
      (hnew : ∀ u ∈ s.users, u.email ≠ email)
      (heq : s' = ⟨s.users ++ [⟨email, key, roles, false⟩],
        rosterAdd s.roster key email⟩) :
      TeamStep s s'

/-- Team states reachable from the empty store. -/
inductive TeamReachable : TeamState → Prop where
  | init : TeamReachable ⟨[], []⟩
  | step {s s' : TeamState} : TeamReachable s → TeamStep s s' → TeamReachable s'

/-- First trace state: the store's initial admin, created non-pending. -/
def teamS1 : TeamState :=
  ⟨[⟨"admin@x.com", "age1admin", ["admin"], false⟩],
    [⟨"age1admin", "admin@x.com"⟩]⟩

/-- Second trace state: Carol invited with an externally supplied key and
verification required — stored pending, roster untouched. -/
def teamS2 : TeamState :=
  ⟨[⟨"admin@x.com", "age1admin", ["admin"], false⟩,
    ⟨"carol@x.com", "age1carol", ["dev"], true⟩],
    [⟨"age1admin", "admin@x.com"⟩]⟩

/-- Third trace state: Dave invited (verification skipped) claiming the same
key Carol's pending record holds; the rewritten roster now carries that key. -/
def teamS3 : TeamState :=
  ⟨[⟨"admin@x.com", "age1admin", ["admin"], false⟩,
    ⟨"carol@x.com", "age1carol", ["dev"], true⟩,
    ⟨"dave@x.com", "age1carol", ["dev"], false⟩],
    [⟨"age1admin", "admin@x.com"⟩, ⟨"age1carol", "dave@x.com"⟩]⟩

/-- The three-step trace is executable. -/
lemma teamS3_reachable : TeamReachable teamS3 := by
  have h1 : TeamReachable teamS1 :=
    TeamReachable.step TeamReachable.init
      (TeamStep.createUser ⟨[], []⟩ "admin@x.com" "age1admin" ["admin"] teamS1
        (by decide) (by decide))
  have h2 : TeamReachable teamS2 :=
    TeamReachable.step h1
      (TeamStep.inviteWithVerification teamS1 ("carol@x.com") ("age1carol") ["dev"]
        teamS2 (by decide) (by decide) (by decide))
  exact TeamReachable.step h2
    (TeamStep.inviteDirect teamS2 ("dave@x.com") ("age1carol") ["dev"] teamS3
      (by decide) (by decide) (by decide))

/-- C2 counterexample: a reachable state in which the public key of a
`verification_pending` user record (Carol's) appears in the team-wide roster —
the operations never check that a claimed key is not already held by another
record, so Dave's invite writes the same key into the roster while Carol is
still pending. -/
theorem pending_key_in_roster_counterexample :
    TeamReachable teamS3 ∧
      ∃ u ∈ teamS3.users, u.pendingVerification = true ∧
        ∃ en ∈ teamS3.roster, en.key = u.publicKey :=
  ⟨teamS3_reachable, by decide⟩

/-- Amended C2 invariant: every roster entry's key is the public key of some
user record that is not pending verification. -/
def rosterBacked (s : TeamState) : Prop :=
  ∀ en ∈ s.roster, ∃ u ∈ s.users,
    u.pendingVerification = false ∧ u.publicKey = en.key

/-- Rosters rewritten by `updateRecipientsFile` are backed by the very list
they are computed from. -/
lemma rosterBacked_update (us : List User) :
    ∀ en ∈ updateRecipientsFile us, ∃ u ∈ us,
      u.pendingVerification = false ∧ u.publicKey = en.key := by
  intro en hen
  unfold updateRecipientsFile at hen
  rcases List.mem_map.mp hen with ⟨u, hu, rfl⟩
  rcases List.mem_filter.mp hu with ⟨humem, hcond⟩
  simp only [Bool.and_eq_true, Bool.not_eq_true', decide_eq_true_eq] at hcond
  exact ⟨u, humem, hcond.2, rfl⟩

/-- Every entry produced by `rosterAdd` either shares its key with an entry of
the original roster or is the appended pair. -/
lemma rosterAdd_cases (roster : List RosterEntry) (key email : String) :
    ∀ en ∈ rosterAdd roster key email,
      (∃ en' ∈ roster, en.key = en'.key) ∨ en = ⟨key, email⟩ := by
  intro en hen
  unfold rosterAdd at hen
  by_cases hany : roster.any (fun en => en.key == key) = true
  · rw [if_pos hany] at hen
    rcases List.mem_map.mp hen with ⟨en', hen', rfl⟩
    by_cases hc : en'.key = key ∧ email ≠ ""
    · rw [if_pos hc]
      exact Or.inl ⟨en', hen', rfl⟩
    · rw [if_neg hc]
      exact Or.inl ⟨en', hen', rfl⟩
  · rw [if_neg hany] at hen
    rcases List.mem_append.mp hen with h | h
    · exact Or.inl ⟨en, h, rfl⟩
    · exact Or.inr (List.mem_singleton.mp h)

/-- C2 (amended): in every reachable team state, every entry of the recipients
roster carries the public key of some user record that is not
`verification_pending`; a pending user's key can therefore appear in the
roster only when a distinct non-pending record holds the same key. -/
theorem roster_keys_backed_by_verified_users (s : TeamState)
    (h : TeamReachable s) : rosterBacked s := by
  induction h with
  | init => intro en hen; exact absurd hen (List.not_mem_nil en)
  | @step s s' hreach hstep ih =>
    cases hstep with
    | inviteDirect email key roles s1 hnew hkey heq =>
      subst heq
      intro en hen
      obtain ⟨u, hu, hp, hk⟩ := rosterBacked_update _ en hen
      exact ⟨u, hu, hp, hk⟩
    | invitePendingNoKey email roles s1 hnew heq =>
      subst heq
      intro en hen
      obtain ⟨u, hu, hp, hk⟩ := ih en hen
      exact ⟨u, List.mem_append_left _ hu, hp, hk⟩
    | inviteWithVerification email key roles s1 hnew hkey heq =>
      subst heq
      intro en hen
      obtain ⟨u, hu, hp, hk⟩ := ih en hen
      exact ⟨u, List.mem_append_left _ hu, hp, hk⟩
    | inviteExisting i roles key' s1 hi hkey heq =>
      subst heq
      by_cases hk' : key' ≠ ""
      · rw [if_pos hk']
        intro en hen
        exact rosterBacked_update _ en hen
      · rw [if_neg hk']
        intro en hen
        obtain ⟨u, hu, hp, hk⟩ := ih en hen
        have hkeq : key' = (s.users.get ⟨i, hi⟩).publicKey := by
          rcases hkey with h | ⟨-, hne⟩
          · exact h
          · exact absurd hne hk'
        obtain ⟨j, hj, hju⟩ := List.mem_iff_getElem.mp hu
        by_cases hij : j = i
        · subst hij
          have hui : u = s.users.get ⟨j, hj⟩ := by
            rw [← hju]
            simp [List.get_eq_getElem]
          refine ⟨{ s.users.get ⟨j, hj⟩ with
              roles := mergeRoles (s.users.get ⟨j, hj⟩).roles roles,
              publicKey := key' }, ?_, ?_, ?_⟩
          · have hjlt : j < (s.users.set j { s.users.get ⟨j, hj⟩ with
                roles := mergeRoles (s.users.get ⟨j, hj⟩).roles roles,
                publicKey := key' }).length := by
              simpa [List.length_set] using hj
            have hget := List.getElem_set_self hjlt
            have hmem := List.getElem_mem hjlt
            rw [hget] at hmem
            exact hmem
          · show (s.users.get ⟨j, hj⟩).pendingVerification = false
            rw [← hui]
            exact hp
          · show key' = en.key
            rw [hkeq, ← hui]
            exact hk
        · refine ⟨u, ?_, hp, hk⟩
          have hjlt : j < (s.users.set i { s.users.get ⟨i, hi⟩ with
              roles := mergeRoles (s.users.get ⟨i, hi⟩).roles roles,
              publicKey := key' }).length := by
            simpa [List.length_set] using hj
          have hget := List.getElem_set_ne (fun h => hij h.symm) hjlt
          rw [hju] at hget
          have hmem := List.getElem_mem hjlt
          rw [hget] at hmem
          exact hmem
    | verify i s1 hi hpend heq =>
      subst heq
      intro en hen
      exact rosterBacked_update _ en hen
    | revoke email s1 hfound heq =>
      subst heq
      intro en hen
      exact rosterBacked_update _ en hen
    | createUser email key roles s1 hnew heq =>
      subst heq
      intro en hen
      rcases rosterAdd_cases s.roster key email en hen with ⟨en', hen', hkeq⟩ | rfl
      · obtain ⟨u, hu, hp, hk⟩ := ih en' hen'
        exact ⟨u, List.mem_append_left _ hu, hp, hkeq ▸ hk⟩
      · exact ⟨⟨email, key, roles, false⟩,
          List.mem_append_right _ (List.mem_singleton_self _), rfl, rfl⟩

/-- Witness for the amended C2 at a concrete reachable state. -/
theorem roster_keys_backed_by_verified_users_witness :
    rosterBacked teamS3 :=
  roster_keys_backed_by_verified_users teamS3 teamS3_reachable

end Passbook
